import Mathlib

/-!
Shallow embedding of the host/session registry of `src/server.js`
(Prisma-Server matchmaking registry).

The JavaScript state consists of two insertion-ordered maps:
  `hosts    : Map<hostKey, {hostKey, room, busy, registeredAt, lastSeen}>`
  `sessions : Map<room, hostKey>`
We embed each `Map` as a `List` in insertion order, keyed respectively by
the `hostKey` field and by the first component.  `Map.set` replaces the
entry in place when the key is present and appends otherwise; `Map.delete`
filters; iteration (`for ... of map.values()` / `map.entries()`) is list
traversal in order.  `Date.now()` and the outputs of `Math.random`-based
code minting (`newRoomCode`, the `hk_` keys) are nondeterministic inputs,
so every operation takes them as explicit parameters.  JavaScript
falsiness of `null` / missing / `""` string fields is modelled by
`normKey`.  Console logging and its dedup state do not touch the registry
and are not modelled.
-/

structure Host where
  hostKey : String
  room : String
  busy : Bool
  registeredAt : Nat
  lastSeen : Nat
deriving DecidableEq, Repr

structure Registry where
  hosts : List Host
  sessions : List (String × String)
deriving DecidableEq, Repr

def emptyRegistry : Registry := ⟨[], []⟩

/-- JavaScript truthiness of an optional string field: `null`, absent and
`""` are all falsy (`(req.body && req.body.hostKey) || null`). -/
def normKey : Option String → Option String
  | none => none
  | some s => if s = "" then none else some s

/-- `hosts.has(k)` on the insertion-ordered host list. -/
def hostsHas (l : List Host) (k : String) : Bool :=
  l.any (fun h => h.hostKey == k)

/-- `hosts.get(k)`. -/
def hostsGet (l : List Host) (k : String) : Option Host :=
  l.find? (fun h => h.hostKey == k)

/-- `hosts.set(k, v)`: replace in place when present, append otherwise. -/
def hostsSet (l : List Host) (k : String) (v : Host) : List Host :=
  if hostsHas l k then l.map (fun h => if h.hostKey == k then v else h)
  else l ++ [v]

/-- In-place mutation of the record object obtained from `hosts.get(k)`
(e.g. `h.lastSeen = Date.now()`). -/
def hostsUpdate (l : List Host) (k : String) (f : Host → Host) : List Host :=
  l.map (fun h => if h.hostKey == k then f h else h)

/-- `sessions.get(r)`. -/
def sessGet (l : List (String × String)) (r : String) : Option String :=
  (l.find? (fun p => p.1 == r)).map (fun p => p.2)

/-- `sessions.set(r, k)`. -/
def sessSet (l : List (String × String)) (r k : String) : List (String × String) :=
  if l.any (fun p => p.1 == r) then l.map (fun p => if p.1 == r then (r, k) else p)
  else l ++ [(r, k)]

/-- `sessions.delete(r)`. -/
def sessDeleteRoom (l : List (String × String)) (r : String) : List (String × String) :=
  l.filter (fun p => !(p.1 == r))

/-- `for (const [room, hid] of sessions.entries()) if (hid === k) sessions.delete(room)`. -/
def sessDeleteHost (l : List (String × String)) (k : String) : List (String × String) :=
  l.filter (fun p => !(p.2 == k))

/-- `counts()`: `{total, busy, avail}`. -/
def counts (s : Registry) : Nat × Nat × Nat :=
  (s.hosts.length, (s.hosts.filter (fun h => h.busy)).length,
    s.hosts.length - (s.hosts.filter (fun h => h.busy)).length)

/-- First loop of `cleanupOrphanedSessions()` (lines 41–43): drop every
session whose `hostKey` is not a live host. -/
def liveSessions (s : Registry) : List (String × String) :=
  s.sessions.filter (fun p => hostsHas s.hosts p.2)

/-- The inner scan of the second loop (lines 46–48): some session entry
matches the host's exact `(room, hostKey)` pair. -/
def hasExactSession (l : List (String × String)) (h : Host) : Bool :=
  l.any (fun p => p.2 == h.hostKey && p.1 == h.room)

/-- Body of the second loop (lines 44–51): clear `busy` on a busy host
with no exact matching session. -/
def fixBusy (l : List (String × String)) (h : Host) : Host :=
  if h.busy && !(hasExactSession l h) then { h with busy := false } else h

/-- `cleanupOrphanedSessions()` (src/server.js lines 40–52): first delete
every session whose `hostKey` is not a live host, then clear `busy` on
every host that has no session entry matching its exact
`(room, hostKey)` pair (the second loop reads the already-pruned
session map). -/
def cleanupOrphanedSessions (s : Registry) : Registry :=
  ⟨s.hosts.map (fixBusy (liveSessions s)), liveSessions s⟩

/-- `POST /hosts/register` (lines 54–72).  `freshKey` is the `hk_`
random key minted when no key was supplied; `freshRoom` is the
`newRoomCode()` output; both are oracle inputs.  Returns the new state
and the `{hostId, room}` response. -/
def register (suppliedKey : Option String) (freshKey freshRoom : String)
    (now : Nat) (s : Registry) : Registry × String × String :=
  match normKey suppliedKey with
  | some k =>
    match hostsGet s.hosts k with
    | some prev =>
      (⟨hostsSet s.hosts k ⟨k, freshRoom, false, prev.registeredAt, now⟩,
         sessDeleteHost s.sessions k⟩, k, freshRoom)
    | none =>
      (⟨hostsSet s.hosts k ⟨k, freshRoom, false, now, now⟩, s.sessions⟩, k, freshRoom)
  | none =>
      (⟨hostsSet s.hosts freshKey ⟨freshKey, freshRoom, false, now, now⟩, s.sessions⟩,
        freshKey, freshRoom)

inductive OpResult
  | ok
  | notFound
deriving DecidableEq, Repr

/-- `POST /hosts/heartbeat` (lines 74–80). -/
def heartbeat (hostKey : Option String) (now : Nat) (s : Registry) :
    Registry × OpResult :=
  match normKey hostKey with
  | none => (s, .notFound)
  | some k =>
    match hostsGet s.hosts k with
    | none => (s, .notFound)
    | some _ =>
      (⟨hostsUpdate s.hosts k (fun h => { h with lastSeen := now }), s.sessions⟩, .ok)

/-- `POST /hosts/release` (lines 82–90). -/
def release (hostKey : Option String) (now : Nat) (s : Registry) :
    Registry × OpResult :=
  match normKey hostKey with
  | none => (s, .notFound)
  | some k =>
    match hostsGet s.hosts k with
    | none => (s, .notFound)
    | some _ =>
      (⟨hostsUpdate s.hosts k (fun h => { h with busy := false, lastSeen := now }),
         sessDeleteHost s.sessions k⟩, .ok)

/-- `POST /hosts/unregister` (lines 92–100): always `{ok:true}`. -/
def unregister (hostKey : Option String) (s : Registry) : Registry × Bool :=
  match normKey hostKey with
  | none => (s, true)
  | some k =>
    if hostsHas s.hosts k then
      (⟨s.hosts.filter (fun h => !(h.hostKey == k)), sessDeleteHost s.sessions k⟩, true)
    else (s, true)

inductive ClaimResult
  | noHosts
  | ok (room hostId : String)
deriving DecidableEq, Repr

/-- `POST /users/claim` (lines 102–117): run the reconciliation pass,
pick the first non-busy host in iteration order, mark it busy, refresh
`lastSeen` and record the session `room → hostKey`. -/
def claim (now : Nat) (s : Registry) : Registry × ClaimResult :=
  let s1 := cleanupOrphanedSessions s
  match s1.hosts.find? (fun h => !h.busy) with
  | none => (s1, .noHosts)
  | some chosen =>
    (⟨hostsUpdate s1.hosts chosen.hostKey
        (fun h => { h with busy := true, lastSeen := now }),
      sessSet s1.sessions chosen.room chosen.hostKey⟩,
     .ok chosen.room chosen.hostKey)

/-- `POST /users/leave` (lines 119–128):
`let key = hostId || (room && sessions.get(room))`. -/
def leave (room hostId : Option String) (now : Nat) (s : Registry) :
    Registry × OpResult :=
  let keyOpt : Option String :=
    match normKey hostId with
    | some k => some k
    | none =>
      match normKey room with
      | some r => normKey (sessGet s.sessions r)
      | none => none
  match keyOpt with
  | none => (s, .notFound)
  | some k =>
    match hostsGet s.hosts k with
    | none => (s, .notFound)
    | some _ =>
      (⟨hostsUpdate s.hosts k (fun h => { h with busy := false, lastSeen := now }),
         match normKey room with
         | some r => sessDeleteRoom s.sessions r
         | none => s.sessions⟩, .ok)

/-- The key `leave` commits to (line 121):
`let key = hostId || (room && sessions.get(room))` — the supplied
`hostId` wins whenever truthy, regardless of liveness; the session
table is consulted only when `hostId` is absent. -/
def leaveKey (room hostId : Option String) (s : Registry) : Option String :=
  match normKey hostId with
  | some k => some k
  | none =>
    match normKey room with
    | some r => normKey (sessGet s.sessions r)
    | none => none

/-- `HOST_TTL_MS = HEARTBEAT_SECS * 1000 * 3` (lines 130–131). -/
def HOST_TTL_MS : Nat := 2 * 1000 * 3

/-- `now - h.lastSeen > HOST_TTL_MS`; with JavaScript numbers a future
`lastSeen` gives a negative difference, never above the threshold, which
truncated `Nat` subtraction reproduces since the threshold is positive. -/
def isStale (now : Nat) (h : Host) : Bool :=
  decide (HOST_TTL_MS < now - h.lastSeen)

/-- The TTL sweep body (lines 132–142): evict every stale host together
with every session referencing it. -/
def sweep (now : Nat) (s : Registry) : Registry :=
  ⟨s.hosts.filter (fun h => !isStale now h),
    s.sessions.filter (fun p => !(s.hosts.any (fun h => isStale now h && h.hostKey == p.2)))⟩

/-- The registry operations, each carrying its request fields, the
oracle values (`Date.now()`, minted key and room) and — for the reaper —
the tick time.  `stepState` is the state transition of one operation. -/
inductive Op
  | register (suppliedKey : Option String) (freshKey freshRoom : String) (now : Nat)
  | heartbeat (hostKey : Option String) (now : Nat)
  | release (hostKey : Option String) (now : Nat)
  | unregister (hostKey : Option String)
  | claim (now : Nat)
  | leave (room hostId : Option String) (now : Nat)
  | sweep (now : Nat)
deriving DecidableEq, Repr

def stepState : Op → Registry → Registry
  | .register sk fk fr now, s => (register sk fk fr now s).1
  | .heartbeat k now, s => (heartbeat k now s).1
  | .release k now, s => (release k now s).1
  | .unregister k, s => (unregister k s).1
  | .claim now, s => (claim now s).1
  | .leave r hid now, s => (leave r hid now s).1
  | .sweep now, s => sweep now s

/-- The room codes of the currently live hosts, in iteration order. -/
def roomsOf (s : Registry) : List String := s.hosts.map Host.room

/-- The keys of the currently live hosts, in iteration order. -/
def hostKeysOf (s : Registry) : List String := s.hosts.map Host.hostKey

/-- The room keys of the session table. -/
def sessRoomsOf (s : Registry) : List String := s.sessions.map Prod.fst

/-- The key an operation `register sk fk _ _` ends up storing under:
the supplied key when truthy, the minted `fk` otherwise. -/
def regKeyUsed (sk : Option String) (fk : String) : String := (normKey sk).getD fk

/-- Freshness of the room code minted by a `register` operation: the
code relies on `Math.random` never colliding with a live room; the other
operations mint nothing. -/
def FreshRoomFor (s : Registry) : Op → Prop
  | .register _ _ fr _ => fr ∉ roomsOf s
  | _ => True

/-- The lock a successful claim establishes on host `K` serving room
`roomK`: `K` is live, busy and carries `roomK`; the session
`(roomK, K)` exists; no other live host carries `roomK`; no other
session points at `K`; and both map-key lists are duplicate-free (the
`Map` structure). -/
def Locked (K roomK : String) (s : Registry) : Prop :=
  (s.hosts.map Host.hostKey).Nodup
  ∧ (s.sessions.map Prod.fst).Nodup
  ∧ (∃ h ∈ s.hosts, h.hostKey = K ∧ h.room = roomK ∧ h.busy = true)
  ∧ (roomK, K) ∈ s.sessions
  ∧ (∀ h ∈ s.hosts, h.room = roomK → h.hostKey = K)
  ∧ (∀ p ∈ s.sessions, p.2 = K → p.1 = roomK)

/-- An operation that does not touch host `K` or room `roomK` at the
state where it executes: no release/unregister/re-register of `K`, no
register storing under `K` or minting `roomK`, no leave naming `K` or
`roomK`, and no sweep whose tick time would evict `K`. -/
def NotAffecting (K roomK : String) (s : Registry) : Op → Prop
  | .register sk fk fr _ => regKeyUsed sk fk ≠ K ∧ fr ≠ roomK
  | .heartbeat _ _ => True
  | .release k _ => normKey k ≠ some K
  | .unregister k => normKey k ≠ some K
  | .claim _ => True
  | .leave room hostId _ => normKey hostId ≠ some K ∧ normKey room ≠ some roomK
  | .sweep now => ∀ h ∈ s.hosts, h.hostKey = K → ¬ HOST_TTL_MS < now - h.lastSeen

/-- A run of operations each of which is `NotAffecting` at the state
where it executes. -/
inductive RunNA (K roomK : String) : Registry → List Op → Registry → Prop
  | nil (s : Registry) : RunNA K roomK s [] s
  | cons {s s' : Registry} {op : Op} {ops : List Op} :
      NotAffecting K roomK s op →
      RunNA K roomK (stepState op s) ops s' →
      RunNA K roomK s (op :: ops) s'

/-- The registry invariants of a reachable state assumed by the
exclusivity theorem: unique host keys (H1), unique live rooms (H2),
unique session rooms (the `Map` structure), and every session pointing
at a live host names that host's current room (the S1/S2 discipline). -/
def RegInv (s : Registry) : Prop :=
  (s.hosts.map Host.hostKey).Nodup
  ∧ (s.sessions.map Prod.fst).Nodup
  ∧ (s.hosts.map Host.room).Nodup
  ∧ (∀ p ∈ s.sessions, ∀ h ∈ s.hosts, p.2 = h.hostKey → p.1 = h.room)

/-! Basic lemmas about the reconciliation pass. -/

theorem fixBusy_hostKey (l : List (String × String)) (h : Host) :
    (fixBusy l h).hostKey = h.hostKey := by
  unfold fixBusy; split <;> rfl

theorem fixBusy_room (l : List (String × String)) (h : Host) :
    (fixBusy l h).room = h.room := by
  unfold fixBusy; split <;> rfl

theorem hasExactSession_mk_busy (l : List (String × String)) (h : Host) (b : Bool) :
    hasExactSession l { h with busy := b } = hasExactSession l h := rfl

theorem fixBusy_idem (l : List (String × String)) (h : Host) :
    fixBusy l (fixBusy l h) = fixBusy l h := by
  unfold fixBusy
  cases hbusy : h.busy <;> cases hex : hasExactSession l h <;>
    simp [hbusy, hex, hasExactSession_mk_busy]

theorem fixBusy_busy_eq_true {l : List (String × String)} {h : Host}
    (hb : (fixBusy l h).busy = true) :
    h.busy = true ∧ hasExactSession l h = true ∧ fixBusy l h = h := by
  unfold fixBusy at hb ⊢
  cases hbusy : h.busy <;> cases hex : hasExactSession l h <;>
    simp [hbusy, hex] at hb ⊢

theorem hostsHas_map_of_hostKey_eq (l : List Host) (f : Host → Host)
    (hf : ∀ h, (f h).hostKey = h.hostKey) (k : String) :
    hostsHas (l.map f) k = hostsHas l k := by
  simp [hostsHas, List.any_map, Function.comp_def, hf]

theorem mem_liveSessions {s : Registry} {p : String × String}
    (hp : p ∈ liveSessions s) : p ∈ s.sessions ∧ hostsHas s.hosts p.2 = true := by
  simpa [liveSessions] using List.mem_filter.mp hp

theorem cleanup_hostsHas (s : Registry) (k : String) :
    hostsHas (cleanupOrphanedSessions s).hosts k = hostsHas s.hosts k :=
  hostsHas_map_of_hostKey_eq _ _ (fun h => fixBusy_hostKey _ h) k

theorem liveSessions_cleanup (s : Registry) :
    liveSessions (cleanupOrphanedSessions s) = liveSessions s := by
  show ((liveSessions s).filter fun p => hostsHas (cleanupOrphanedSessions s).hosts p.2)
      = liveSessions s
  rw [List.filter_eq_self]
  intro p hp
  rw [cleanup_hostsHas]
  exact (mem_liveSessions hp).2

theorem cleanup_idem (s : Registry) :
    cleanupOrphanedSessions (cleanupOrphanedSessions s) = cleanupOrphanedSessions s := by
  show (⟨(cleanupOrphanedSessions s).hosts.map
          (fixBusy (liveSessions (cleanupOrphanedSessions s))),
        liveSessions (cleanupOrphanedSessions s)⟩ : Registry) = cleanupOrphanedSessions s
  rw [liveSessions_cleanup]
  show (⟨(s.hosts.map (fixBusy (liveSessions s))).map (fixBusy (liveSessions s)),
        liveSessions s⟩ : Registry) = cleanupOrphanedSessions s
  rw [List.map_map]
  have hcomp : fixBusy (liveSessions s) ∘ fixBusy (liveSessions s)
      = fixBusy (liveSessions s) := by
    funext h; exact fixBusy_idem _ h
  rw [hcomp]
  rfl

/-- Claim C5: the orphan-reconciliation pass is idempotent, and after one
run no session references a dead host and no live host is busy without a
session entry matching its exact `(room, hostKey)` pair. -/
theorem cleanup_convergence (s : Registry) :
    cleanupOrphanedSessions (cleanupOrphanedSessions s) = cleanupOrphanedSessions s
    ∧ (∀ p ∈ (cleanupOrphanedSessions s).sessions,
        hostsHas (cleanupOrphanedSessions s).hosts p.2 = true)
    ∧ (∀ h ∈ (cleanupOrphanedSessions s).hosts, h.busy = true →
        ∃ p ∈ (cleanupOrphanedSessions s).sessions, p.1 = h.room ∧ p.2 = h.hostKey) := by
  refine ⟨cleanup_idem s, ?_, ?_⟩
  · intro p hp
    rw [cleanup_hostsHas]
    exact (mem_liveSessions (s := s) hp).2
  · intro h hh hb
    have hh' : h ∈ s.hosts.map (fixBusy (liveSessions s)) := hh
    obtain ⟨h0, hh0, rfl⟩ := List.mem_map.mp hh'
    obtain ⟨hb0, hex, heq⟩ := fixBusy_busy_eq_true hb
    unfold hasExactSession at hex
    obtain ⟨p, hpmem, hp⟩ := List.any_eq_true.mp hex
    simp only [Bool.and_eq_true, beq_iff_eq] at hp
    refine ⟨p, hpmem, ?_, ?_⟩
    · rw [fixBusy_room]; exact hp.2
    · rw [fixBusy_hostKey]; exact hp.1

/-! Unregister: always ok, full deletion, idempotence (claim C9). -/

theorem hostsHas_filter_ne (l : List Host) (k : String) :
    hostsHas (l.filter (fun h => !(h.hostKey == k))) k = false := by
  simp [hostsHas, List.any_eq_true, List.mem_filter]

/-- Claim C9: `unregister` returns ok on every input; when the key is
live it deletes that host and every session referencing it; a second
`unregister` of the same key also returns ok and changes neither table. -/
theorem unregister_always_ok_and_idem (k : Option String) (s : Registry) :
    (unregister k s).2 = true
    ∧ (∀ kk, normKey k = some kk → hostsHas s.hosts kk = true →
        (∀ h : Host, h ∈ (unregister k s).1.hosts ↔ h ∈ s.hosts ∧ h.hostKey ≠ kk)
        ∧ (∀ p : String × String,
            p ∈ (unregister k s).1.sessions ↔ p ∈ s.sessions ∧ p.2 ≠ kk))
    ∧ (unregister k (unregister k s).1).2 = true
    ∧ (unregister k (unregister k s).1).1 = (unregister k s).1 := by
  cases hnk : normKey k with
  | none =>
    refine ⟨by simp [unregister, hnk], ?_, by simp [unregister, hnk], by simp [unregister, hnk]⟩
    intro kk hkk
    simp at hkk
  | some kk =>
    by_cases hhas : hostsHas s.hosts kk = true
    · have h1 : (unregister k s).1
          = ⟨s.hosts.filter (fun h => !(h.hostKey == kk)), sessDeleteHost s.sessions kk⟩ := by
        simp [unregister, hnk, hhas]
      refine ⟨by simp [unregister, hnk, hhas], ?_, ?_, ?_⟩
      · intro kk' hkk' _
        injection hkk' with hkk'
        subst hkk'
        constructor
        · intro h
          rw [h1]
          simp [List.mem_filter]
        · intro p
          rw [h1]
          simp [sessDeleteHost, List.mem_filter]
      · simp [unregister, hnk, hhas, hostsHas_filter_ne]
      · simp [unregister, hnk, hhas, hostsHas_filter_ne]
    · have h1 : unregister k s = (s, true) := by
        simp [unregister, hnk, hhas]
      refine ⟨by simp [h1], ?_, by simp [h1, unregister, hnk, hhas], by simp [h1, unregister, hnk, hhas]⟩
      intro kk' hkk' hhas'
      injection hkk' with hkk'
      subst hkk'
      exact absurd hhas' hhas

/-- Claim C10: whenever `heartbeat`, `release` or `leave` reports
`host_not_found` — including for a missing body or null key — the host
table and the session table are exactly as before the call. -/
theorem notFound_leaves_state_unchanged (k room hostId : Option String)
    (now : Nat) (s : Registry) :
    ((heartbeat k now s).2 = OpResult.notFound → (heartbeat k now s).1 = s)
    ∧ ((release k now s).2 = OpResult.notFound → (release k now s).1 = s)
    ∧ ((leave room hostId now s).2 = OpResult.notFound → (leave room hostId now s).1 = s) := by
  refine ⟨?_, ?_, ?_⟩
  · intro hres
    cases hnk : normKey k with
    | none => simp [heartbeat, hnk]
    | some kk =>
      cases hg : hostsGet s.hosts kk with
      | none => simp [heartbeat, hnk, hg]
      | some hh => simp [heartbeat, hnk, hg] at hres
  · intro hres
    cases hnk : normKey k with
    | none => simp [release, hnk]
    | some kk =>
      cases hg : hostsGet s.hosts kk with
      | none => simp [release, hnk, hg]
      | some hh => simp [release, hnk, hg] at hres
  · intro hres
    cases hnh : normKey hostId with
    | some k0 =>
      cases hg : hostsGet s.hosts k0 with
      | none => simp [leave, hnh, hg]
      | some hh => simp [leave, hnh, hg] at hres
    | none =>
      cases hnr : normKey room with
      | none => simp [leave, hnh, hnr]
      | some r =>
        cases hsg : normKey (sessGet s.sessions r) with
        | none => simp [leave, hnh, hnr, hsg]
        | some k0 =>
          cases hg : hostsGet s.hosts k0 with
          | none => simp [leave, hnh, hnr, hsg, hg]
          | some hh => simp [leave, hnh, hnr, hsg, hg] at hres

/-! TTL sweep (claim C8). -/

theorem length_filter_lt_of_mem_not {α : Type} {l : List α} {p : α → Bool} {x : α}
    (hx : x ∈ l) (hpx : p x = false) : (l.filter p).length < l.length := by
  induction l with
  | nil => cases hx
  | cons a t ih =>
    rcases List.mem_cons.mp hx with rfl | hxt
    · rw [List.filter_cons, hpx]
      exact Nat.lt_succ_of_le (List.length_filter_le p t)
    · by_cases hpa : p a = true
      · rw [List.filter_cons, hpa]
        simpa using Nat.succ_lt_succ (ih hxt)
      · rw [List.filter_cons, Bool.eq_false_iff.mpr hpa]
        exact Nat.lt_succ_of_le (Nat.le_of_lt (ih hxt))

/-- Claim C8: a TTL sweep pass deletes exactly the hosts whose
`now - lastSeen` exceeds the threshold, deletes every session referencing
an evicted host and keeps every other host and session; when some host is
evicted the `health` total strictly drops, so an evicted host is absent
from the counts. -/
theorem ttl_sweep_spec (now : Nat) (s : Registry) :
    (∀ h ∈ s.hosts, (h ∈ (sweep now s).hosts ↔ ¬ HOST_TTL_MS < now - h.lastSeen))
    ∧ (∀ h ∈ (sweep now s).hosts, h ∈ s.hosts)
    ∧ (∀ p ∈ s.sessions,
        (p ∈ (sweep now s).sessions ↔
          ∀ h ∈ s.hosts, h.hostKey = p.2 → ¬ HOST_TTL_MS < now - h.lastSeen))
    ∧ (∀ p ∈ (sweep now s).sessions, p ∈ s.sessions)
    ∧ ((∃ h ∈ s.hosts, HOST_TTL_MS < now - h.lastSeen) →
        (counts (sweep now s)).1 < (counts s).1) := by
  refine ⟨?_, ?_, ?_, ?_, ?_⟩
  · intro h hh
    simp [sweep, List.mem_filter, isStale, hh]
  · intro h hh
    exact (List.mem_filter.mp hh).1
  · intro p hp
    constructor
    · intro hmem h hh hkey
      have := (List.mem_filter.mp hmem).2
      simp only [Bool.not_eq_true', List.any_eq_false] at this
      have h2 := this h hh
      simp only [Bool.and_eq_true, not_and, beq_iff_eq] at h2
      intro hstale
      exact absurd hkey (h2 (by simpa [isStale] using hstale))
    · intro hall
      refine List.mem_filter.mpr ⟨hp, ?_⟩
      simp only [Bool.not_eq_true', List.any_eq_false]
      intro h hh
      simp only [Bool.and_eq_true, not_and, beq_iff_eq, isStale, decide_eq_true_eq]
      intro hstale
      exact fun hkey => (hall h hh hkey) hstale
  · intro p hp
    exact (List.mem_filter.mp hp).1
  · rintro ⟨h, hh, hstale⟩
    have : (!isStale now h) = false := by simp [isStale, hstale]
    exact length_filter_lt_of_mem_not hh this

/-! Keyed-map lemmas for the host list. -/

theorem hostsHas_of_hostsGet_some {l : List Host} {k : String} {h : Host}
    (hg : hostsGet l k = some h) : hostsHas l k = true := by
  unfold hostsGet at hg
  unfold hostsHas
  have hmem : h ∈ l := List.mem_of_find?_eq_some hg
  have hp := List.find?_some hg
  exact List.any_eq_true.mpr ⟨h, hmem, hp⟩

theorem hostsGet_none_iff {l : List Host} {k : String} :
    hostsGet l k = none ↔ hostsHas l k = false := by
  simp [hostsGet, hostsHas, List.find?_eq_none, List.any_eq_false]

theorem map_eq_self_of_eq {α : Type} {l : List α} {f : α → α}
    (h : ∀ a ∈ l, f a = a) : l.map f = l := by
  induction l with
  | nil => rfl
  | cons a t ih =>
    rw [List.map_cons, h a (List.mem_cons_self a t),
      ih (fun x hx => h x (List.mem_cons_of_mem a hx))]

theorem find?_append_cons_of_none {α : Type} {l1 l2 : List α} {p : α → Bool} {a : α}
    (h1 : ∀ x ∈ l1, p x = false) (ha : p a = true) :
    (l1 ++ a :: l2).find? p = some a := by
  induction l1 with
  | nil =>
    rw [List.nil_append]
    exact List.find?_cons_of_pos _ ha
  | cons b t ih =>
    rw [List.cons_append, List.find?_cons_of_neg]
    · exact ih (fun x hx => h1 x (List.mem_cons_of_mem b hx))
    · simp [h1 b (List.mem_cons_self b t)]

/-- Splitting an update of a keyed host list around the unique entry
carrying the key (uniqueness from the map structure, spec invariant H1). -/
theorem hostsUpdate_split {l : List Host} {k : String} {prev : Host} (f : Host → Host)
    (hnd : (l.map Host.hostKey).Nodup)
    (hget : hostsGet l k = some prev) :
    ∃ l1 l2, l = l1 ++ prev :: l2
      ∧ (∀ h ∈ l1, (h.hostKey == k) = false) ∧ (∀ h ∈ l2, (h.hostKey == k) = false)
      ∧ hostsUpdate l k f = l1 ++ f prev :: l2 := by
  induction l with
  | nil => cases hget
  | cons a t ih =>
    rw [List.map_cons, List.nodup_cons] at hnd
    cases ha : a.hostKey == k with
    | true =>
      have hprev : prev = a := by
        have h0 : hostsGet (a :: t) k = some a := List.find?_cons_of_pos _ ha
        rw [hget] at h0
        exact Option.some.inj h0
      subst hprev
      have hak : prev.hostKey = k := by simpa using ha
      have hnotk : ∀ h ∈ t, (h.hostKey == k) = false := by
        intro h hh
        rw [Bool.eq_false_iff]
        intro hcontra
        apply hnd.1
        rw [hak, ← (show h.hostKey = k by simpa using hcontra)]
        exact List.mem_map_of_mem Host.hostKey hh
      have hupd : hostsUpdate (prev :: t) k f = [] ++ f prev :: t := by
        unfold hostsUpdate
        rw [List.map_cons, if_pos ha, List.nil_append]
        congr 1
        exact map_eq_self_of_eq (fun h hh => by simp [hnotk h hh])
      exact ⟨[], t, rfl, fun h hh => absurd hh (List.not_mem_nil h), hnotk, hupd⟩
    | false =>
      have hget' : hostsGet t k = some prev := by
        have h0 := hget
        unfold hostsGet at h0 ⊢
        rwa [List.find?_cons_of_neg _ (by simp [ha])] at h0
      obtain ⟨l1, l2, hsplit, h1, h2, hupd⟩ := ih hnd.2 hget'
      refine ⟨a :: l1, l2, ?_, ?_, h2, ?_⟩
      · rw [hsplit, List.cons_append]
      · intro h hh
        rcases List.mem_cons.mp hh with rfl | hh'
        · exact ha
        · exact h1 h hh'
      · unfold hostsUpdate at hupd ⊢
        rw [List.map_cons, if_neg (by simp [ha]), hupd, List.cons_append]

/-- The entry a keyed update stores is what a later `get` returns, even
without a uniqueness assumption: only the first entry matters to `find?`. -/
theorem find?_map_update_self {l : List Host} {k : String} {f : Host → Host}
    (hhas : hostsHas l k = true)
    (hres : ∀ h, (h.hostKey == k) = true → ((f h).hostKey == k) = true) :
    ∃ h0, hostsGet l k = some h0 ∧ hostsGet (hostsUpdate l k f) k = some (f h0) := by
  induction l with
  | nil => simp [hostsHas] at hhas
  | cons a t ih =>
    cases ha : a.hostKey == k with
    | true =>
      refine ⟨a, List.find?_cons_of_pos _ ha, ?_⟩
      unfold hostsGet hostsUpdate
      rw [List.map_cons, if_pos ha]
      exact List.find?_cons_of_pos _ (hres a ha)
    | false =>
      have hhas' : hostsHas t k = true := by
        unfold hostsHas at hhas ⊢
        simpa [List.any_cons, ha] using hhas
      obtain ⟨h0, hg, hg'⟩ := ih hhas'
      refine ⟨h0, ?_, ?_⟩
      · unfold hostsGet at hg ⊢
        rw [List.find?_cons_of_neg _ (by simp [ha])]
        exact hg
      · unfold hostsGet hostsUpdate at hg' ⊢
        rw [List.map_cons, if_neg (by simp [ha]), List.find?_cons_of_neg _ (by simp [ha])]
        exact hg'

theorem hostsSet_eq_update_of_has {l : List Host} {k : String} (v : Host)
    (hhas : hostsHas l k = true) :
    hostsSet l k v = hostsUpdate l k (fun _ => v) := by
  unfold hostsSet hostsUpdate
  rw [if_pos hhas]

/-! Registration (claims C4 and C6). -/

/-- Claim C4 (amended): re-registering a live key `K` — for every
generated room code `fr` — deletes every session pointing at `K`,
stores the generator's room code, preserves `registeredAt` from the
prior record, resets `busy` to false and sets `lastSeen` to now; the
stored room equals the previous one exactly when the generated code
does (the code performs no distinctness check). -/
theorem reregister_spec (s : Registry) (K fk fr : String) (now : Nat) (prev : Host)
    (hK : K ≠ "")
    (hfind : hostsGet s.hosts K = some prev) :
    (register (some K) fk fr now s).2.1 = K
    ∧ (register (some K) fk fr now s).2.2 = fr
    ∧ (∀ p : String × String,
        p ∈ (register (some K) fk fr now s).1.sessions ↔ p ∈ s.sessions ∧ p.2 ≠ K)
    ∧ hostsGet (register (some K) fk fr now s).1.hosts K
        = some ⟨K, fr, false, prev.registeredAt, now⟩
    ∧ ((hostsGet (register (some K) fk fr now s).1.hosts K).map Host.room
        = some prev.room ↔ fr = prev.room) := by
  have hnk : normKey (some K) = some K := by simp [normKey, hK]
  have hhas : hostsHas s.hosts K = true := hostsHas_of_hostsGet_some hfind
  have hreg : register (some K) fk fr now s
      = (⟨hostsSet s.hosts K ⟨K, fr, false, prev.registeredAt, now⟩,
          sessDeleteHost s.sessions K⟩, K, fr) := by
    simp [register, hnk, hfind]
  have hgetafter : hostsGet (register (some K) fk fr now s).1.hosts K
      = some ⟨K, fr, false, prev.registeredAt, now⟩ := by
    rw [hreg]
    show hostsGet (hostsSet s.hosts K ⟨K, fr, false, prev.registeredAt, now⟩) K = _
    rw [hostsSet_eq_update_of_has _ hhas]
    have hres : ∀ h : Host, (h.hostKey == K) = true →
        (((fun _ => (⟨K, fr, false, prev.registeredAt, now⟩ : Host)) h).hostKey == K)
          = true := by
      intro h _
      simp
    obtain ⟨h0, hg0, hg1⟩ := find?_map_update_self hhas hres
    rw [hfind] at hg0
    have hprev : prev = h0 := Option.some.inj hg0
    subst hprev
    exact hg1
  refine ⟨by rw [hreg], by rw [hreg], ?_, hgetafter, ?_⟩
  · intro p
    rw [hreg]
    simp [sessDeleteHost, List.mem_filter]
  · rw [hgetafter]
    simp

/-- Witness for `reregister_spec` at a concrete one-host registry. -/
theorem reregister_spec_witness :
    hostsGet (register (some "K") "x" "rB" 5
        (⟨[⟨"K", "rA", true, 7, 0⟩], [("rA", "K")]⟩ : Registry)).1.hosts "K"
      = some ⟨"K", "rB", false, 7, 5⟩ :=
  (reregister_spec (⟨[⟨"K", "rA", true, 7, 0⟩], [("rA", "K")]⟩ : Registry)
    "K" "x" "rB" 5 ⟨"K", "rA", true, 7, 0⟩ (by decide) (by decide)).2.2.2.1

/-- Claim C4 counterexample: when the room generator returns the host's
previous code — the code never checks — re-registration keeps room
"rA", refuting "issues a room code different from K's previous one". -/
theorem reregister_room_repeat_cex :
    ((hostsGet (⟨[⟨"K", "rA", false, 7, 0⟩], []⟩ : Registry).hosts "K").map Host.room
        = some "rA")
    ∧ (register (some "K") "x" "rA" 5 (⟨[⟨"K", "rA", false, 7, 0⟩], []⟩ : Registry)).2.2
        = "rA"
    ∧ (hostsGet (register (some "K") "x" "rA" 5
          (⟨[⟨"K", "rA", false, 7, 0⟩], []⟩ : Registry)).1.hosts "K").map Host.room
        = some "rA" :=
  ⟨by decide, by decide, by decide⟩

/-- Claim C6 (amended): when the supplied key is absent or not live, the
fresh-registration branch stores under the supplied key itself when one
was given — the code reuses it rather than minting a new one — or under
the minted key otherwise; provided the used key is not live, it appends
a fresh record with `registeredAt = lastSeen = now` and `busy = false`,
and that key is distinct from every live host's key. -/
theorem register_fresh_spec (s : Registry) (sk : Option String) (fk fr : String)
    (now : Nat)
    (hnot : hostsHas s.hosts (regKeyUsed sk fk) = false) :
    (register sk fk fr now s).2.1 = regKeyUsed sk fk
    ∧ (register sk fk fr now s).2.2 = fr
    ∧ (register sk fk fr now s).1.hosts
        = s.hosts ++ [⟨regKeyUsed sk fk, fr, false, now, now⟩]
    ∧ (register sk fk fr now s).1.sessions = s.sessions
    ∧ ∀ h ∈ s.hosts, h.hostKey ≠ regKeyUsed sk fk := by
  have hlast : ∀ h ∈ s.hosts, h.hostKey ≠ regKeyUsed sk fk := by
    intro h hh hcontra
    rw [show hostsHas s.hosts (regKeyUsed sk fk) = true from
      List.any_eq_true.mpr ⟨h, hh, by simp [hcontra]⟩] at hnot
    cases hnot
  cases hnk : normKey sk with
  | none =>
    have hux : regKeyUsed sk fk = fk := by simp [regKeyUsed, hnk]
    rw [hux] at hnot hlast ⊢
    refine ⟨?_, ?_, ?_, ?_, hlast⟩ <;>
      simp [register, hnk, hostsSet, hnot]
  | some k =>
    have hux : regKeyUsed sk fk = k := by simp [regKeyUsed, hnk]
    rw [hux] at hnot hlast ⊢
    have hget : hostsGet s.hosts k = none := hostsGet_none_iff.mpr hnot
    refine ⟨?_, ?_, ?_, ?_, hlast⟩ <;>
      simp [register, hnk, hget, hostsSet, hnot]

/-- Witness for `register_fresh_spec`: a supplied-but-unknown key. -/
theorem register_fresh_spec_witness :
    hostsHas (⟨[⟨"K1", "rA", false, 0, 0⟩], []⟩ : Registry).hosts
        (regKeyUsed (some "K2") "hk_f") = false
    ∧ (register (some "K2") "hk_f" "rB" 3
        (⟨[⟨"K1", "rA", false, 0, 0⟩], []⟩ : Registry)).2.1
        = regKeyUsed (some "K2") "hk_f" :=
  ⟨by decide,
    (register_fresh_spec (⟨[⟨"K1", "rA", false, 0, 0⟩], []⟩ : Registry)
      (some "K2") "hk_f" "rB" 3 (by decide)).1⟩

/-- Claim C6 counterexample: a register call supplying an unknown key
stores and returns the supplied value itself — the registry does not
mint a fresh key in place of the supplied one. -/
theorem register_reuses_supplied_key_cex :
    (register (some "K") "hk_fresh" "rA" 0 emptyRegistry).2.1 = "K"
    ∧ (register (some "K") "hk_fresh" "rA" 0 emptyRegistry).2.1 ≠ "hk_fresh" :=
  ⟨by decide, by decide⟩

/-! Room uniqueness among live hosts (claim C3). -/

theorem map_map_room_eq {l : List Host} {g : Host → Host}
    (hg : ∀ h, (g h).room = h.room) :
    (l.map g).map Host.room = l.map Host.room := by
  simp [List.map_map, Function.comp_def, hg]

theorem hostsGet_some_of_has {l : List Host} {k : String}
    (hhas : hostsHas l k = true) : ∃ h, hostsGet l k = some h := by
  cases hfind : hostsGet l k with
  | some h => exact ⟨h, rfl⟩
  | none =>
    rw [hostsGet_none_iff.mp hfind] at hhas
    cases hhas

theorem roomsNodup_filter {l : List Host} (p : Host → Bool)
    (hnd : (l.map Host.room).Nodup) : ((l.filter p).map Host.room).Nodup :=
  List.Nodup.sublist (List.Sublist.map Host.room (List.filter_sublist l)) hnd

theorem roomsNodup_hostsSet {l : List Host} {k : String} {v : Host}
    (hk : (l.map Host.hostKey).Nodup)
    (hnd : (l.map Host.room).Nodup)
    (hfr : v.room ∉ l.map Host.room) :
    ((hostsSet l k v).map Host.room).Nodup := by
  by_cases hhas : hostsHas l k = true
  · obtain ⟨prev, hget⟩ := hostsGet_some_of_has hhas
    rw [hostsSet_eq_update_of_has _ hhas]
    obtain ⟨l1, l2, hsplit, h1, h2, hupd⟩ := hostsUpdate_split (fun _ => v) hk hget
    rw [hupd]
    rw [hsplit] at hnd hfr
    rw [List.map_append, List.map_cons] at hnd hfr ⊢
    rw [List.nodup_middle, List.nodup_cons] at hnd ⊢
    refine ⟨?_, hnd.2⟩
    intro hmem
    apply hfr
    rw [List.mem_append] at hmem ⊢
    rcases hmem with hm | hm
    · exact Or.inl hm
    · exact Or.inr (List.mem_cons_of_mem _ hm)
  · have hset : hostsSet l k v = l ++ [v] := by
      unfold hostsSet
      rw [if_neg hhas]
    rw [hset, List.map_append]
    rw [List.nodup_append]
    refine ⟨hnd, List.nodup_singleton _, ?_⟩
    intro a ha hb
    rw [show List.map Host.room [v] = [v.room] from rfl, List.mem_singleton] at hb
    subst hb
    exact hfr ha

theorem roomsOf_cleanup (s : Registry) :
    roomsOf (cleanupOrphanedSessions s) = roomsOf s :=
  map_map_room_eq (fun h => fixBusy_room _ h)

/-- Claim C3 (amended): provided the room code minted by a `register`
operation differs from the rooms of all currently live hosts — the code
relies on `Math.random` for this and performs no check — pairwise
distinctness of the live hosts' room codes is preserved by every
operation (host keys being unique, the `Map` structural invariant H1). -/
theorem rooms_nodup_invariant (s : Registry) (op : Op)
    (hk : (hostKeysOf s).Nodup)
    (hnd : (roomsOf s).Nodup)
    (hfresh : FreshRoomFor s op) :
    (roomsOf (stepState op s)).Nodup := by
  cases op with
  | register sk fk fr now =>
    have hfr : fr ∉ s.hosts.map Host.room := hfresh
    cases hnk : normKey sk with
    | none =>
      simp only [stepState, register, hnk, roomsOf]
      exact roomsNodup_hostsSet hk hnd hfr
    | some k =>
      cases hget : hostsGet s.hosts k with
      | some prev =>
        simp only [stepState, register, hnk, hget, roomsOf]
        exact roomsNodup_hostsSet hk hnd hfr
      | none =>
        simp only [stepState, register, hnk, hget, roomsOf]
        exact roomsNodup_hostsSet hk hnd hfr
  | heartbeat k now =>
    cases hnk : normKey k with
    | none => simpa [stepState, heartbeat, hnk, roomsOf] using hnd
    | some kk =>
      cases hget : hostsGet s.hosts kk with
      | none => simpa [stepState, heartbeat, hnk, hget, roomsOf] using hnd
      | some h =>
        simp only [stepState, heartbeat, hnk, hget, roomsOf]
        unfold hostsUpdate
        rw [map_map_room_eq (fun h0 => by dsimp only; split <;> rfl)]
        exact hnd
  | release k now =>
    cases hnk : normKey k with
    | none => simpa [stepState, release, hnk, roomsOf] using hnd
    | some kk =>
      cases hget : hostsGet s.hosts kk with
      | none => simpa [stepState, release, hnk, hget, roomsOf] using hnd
      | some h =>
        simp only [stepState, release, hnk, hget, roomsOf]
        unfold hostsUpdate
        rw [map_map_room_eq (fun h0 => by dsimp only; split <;> rfl)]
        exact hnd
  | unregister k =>
    cases hnk : normKey k with
    | none => simpa [stepState, unregister, hnk, roomsOf] using hnd
    | some kk =>
      by_cases hhas : hostsHas s.hosts kk = true
      · simp only [stepState, unregister, hnk, hhas, if_pos, roomsOf]
        exact roomsNodup_filter _ hnd
      · simp only [stepState, unregister, hnk, roomsOf]
        rw [if_neg hhas]
        exact hnd
  | claim now =>
    have hcl : roomsOf (cleanupOrphanedSessions s) = roomsOf s := roomsOf_cleanup s
    cases hfind : (cleanupOrphanedSessions s).hosts.find? (fun h => !h.busy) with
    | none =>
      simp only [stepState, claim, hfind]
      rw [hcl]
      exact hnd
    | some chosen =>
      simp only [stepState, claim, hfind, roomsOf]
      unfold hostsUpdate
      rw [map_map_room_eq (fun h0 => by dsimp only; split <;> rfl)]
      have hcl' := hcl
      unfold roomsOf at hcl'
      rw [hcl']
      exact hnd
  | leave r hid now =>
    have hupd : ∀ kk : String,
        (((hostsUpdate s.hosts kk
            (fun h => { h with busy := false, lastSeen := now })).map Host.room).Nodup) := by
      intro kk
      unfold hostsUpdate
      rw [map_map_room_eq (fun h0 => by dsimp only; split <;> rfl)]
      exact hnd
    cases hnh : normKey hid with
    | some k0 =>
      cases hget : hostsGet s.hosts k0 with
      | none => simpa [stepState, leave, hnh, hget, roomsOf] using hnd
      | some h =>
        simp only [stepState, leave, hnh, hget, roomsOf]
        exact hupd k0
    | none =>
      cases hnr : normKey r with
      | none => simpa [stepState, leave, hnh, hnr, roomsOf] using hnd
      | some rr =>
        cases hsg : normKey (sessGet s.sessions rr) with
        | none => simpa [stepState, leave, hnh, hnr, hsg, roomsOf] using hnd
        | some k0 =>
          cases hget : hostsGet s.hosts k0 with
          | none => simpa [stepState, leave, hnh, hnr, hsg, hget, roomsOf] using hnd
          | some h =>
            simp only [stepState, leave, hnh, hnr, hsg, hget, roomsOf]
            exact hupd k0
  | sweep now =>
    simp only [stepState, sweep, roomsOf]
    exact roomsNodup_filter _ hnd

/-- Witness for `rooms_nodup_invariant`: a fresh registration with a
room distinct from the one live room. -/
theorem rooms_nodup_invariant_witness :
    (roomsOf (stepState (Op.register none "B" "rB" 1)
        (⟨[⟨"A", "rA", false, 0, 0⟩], []⟩ : Registry))).Nodup :=
  rooms_nodup_invariant (⟨[⟨"A", "rA", false, 0, 0⟩], []⟩ : Registry)
    (Op.register none "B" "rB" 1) (by decide) (by decide)
    (show "rB" ∉ roomsOf (⟨[⟨"A", "rA", false, 0, 0⟩], []⟩ : Registry) by decide)

/-- Claim C3 counterexample: two fresh registrations whose random room
generator happens to return the same code leave two live hosts with
equal room codes — `newRoomCode` output is never checked against the
live rooms, so room uniqueness is not an unconditional invariant. -/
theorem duplicate_rooms_cex :
    roomsOf (stepState (Op.register none "k2" "rA" 0)
        (stepState (Op.register none "k1" "rA" 0) emptyRegistry)) = ["rA", "rA"]
    ∧ ¬ (roomsOf (stepState (Op.register none "k2" "rA" 0)
        (stepState (Op.register none "k1" "rA" 0) emptyRegistry))).Nodup :=
  ⟨by decide, by decide⟩

/-! The matching operation (claim C2). -/

theorem find?_split {α : Type} {l : List α} {p : α → Bool} {a : α}
    (h : l.find? p = some a) :
    p a = true ∧ ∃ l1 l2, l = l1 ++ a :: l2 ∧ ∀ x ∈ l1, p x = false := by
  induction l with
  | nil => cases h
  | cons b t ih =>
    cases hb : p b with
    | true =>
      rw [List.find?_cons_of_pos _ hb] at h
      have hab : b = a := Option.some.inj h
      subst hab
      exact ⟨hb, [], t, rfl, fun x hx => absurd hx (List.not_mem_nil x)⟩
    | false =>
      rw [List.find?_cons_of_neg _ (by simp [hb])] at h
      obtain ⟨hpa, l1, l2, hsplit, h1⟩ := ih h
      refine ⟨hpa, b :: l1, l2, by rw [hsplit, List.cons_append], ?_⟩
      intro x hx
      rcases List.mem_cons.mp hx with rfl | hx'
      · exact hb
      · exact h1 x hx'

theorem find?_sessSet_map {l : List (String × String)} {r k : String}
    (hany : l.any (fun p => p.1 == r) = true) :
    (l.map (fun p => if p.1 == r then (r, k) else p)).find? (fun p => p.1 == r)
      = some (r, k) := by
  induction l with
  | nil => cases hany
  | cons a t ih =>
    cases ha : a.1 == r with
    | true =>
      rw [List.map_cons, if_pos ha, List.find?_cons_of_pos _ (by simp)]
    | false =>
      have hany' : t.any (fun p => p.1 == r) = true := by
        simpa [List.any_cons, ha] using hany
      rw [List.map_cons, if_neg (by simp [ha]), List.find?_cons_of_neg _ (by simp [ha])]
      exact ih hany'

theorem sessGet_sessSet_self (l : List (String × String)) (r k : String) :
    sessGet (sessSet l r k) r = some k := by
  unfold sessGet sessSet
  by_cases hany : l.any (fun p => p.1 == r) = true
  · rw [if_pos hany, find?_sessSet_map hany]
    rfl
  · rw [if_neg hany]
    have hall : ∀ x ∈ l, (x.1 == r) = false := by
      intro x hx
      rcases hx2 : (x.1 == r) with _ | _
      · rfl
      · exact absurd (List.any_eq_true.mpr ⟨x, hx, hx2⟩) hany
    rw [find?_append_cons_of_none hall (by simp)]
    rfl

theorem keys_ne_of_nodup_middle {l1 l2 : List Host} {c : Host}
    (hnd : ((l1 ++ c :: l2).map Host.hostKey).Nodup) :
    (∀ h ∈ l1, (h.hostKey == c.hostKey) = false)
    ∧ (∀ h ∈ l2, (h.hostKey == c.hostKey) = false) := by
  rw [List.map_append, List.map_cons, List.nodup_middle, List.nodup_cons] at hnd
  have hnotin := hnd.1
  constructor <;> intro h hh <;> rw [Bool.eq_false_iff] <;> intro hcontra
  · apply hnotin
    rw [List.mem_append]
    left
    rw [← (show h.hostKey = c.hostKey by simpa using hcontra)]
    exact List.mem_map_of_mem Host.hostKey hh
  · apply hnotin
    rw [List.mem_append]
    right
    rw [← (show h.hostKey = c.hostKey by simpa using hcontra)]
    exact List.mem_map_of_mem Host.hostKey hh

theorem hostsUpdate_append_middle {l1 l2 : List Host} {c : Host} (f : Host → Host)
    (h1 : ∀ h ∈ l1, (h.hostKey == c.hostKey) = false)
    (h2 : ∀ h ∈ l2, (h.hostKey == c.hostKey) = false) :
    hostsUpdate (l1 ++ c :: l2) c.hostKey f = l1 ++ f c :: l2 := by
  unfold hostsUpdate
  rw [List.map_append, List.map_cons]
  rw [map_eq_self_of_eq (fun h hh => by simp [h1 h hh])]
  rw [map_eq_self_of_eq (fun h hh => by simp [h2 h hh])]
  rw [if_pos (by simp)]

theorem hostKeysOf_cleanup (s : Registry) :
    hostKeysOf (cleanupOrphanedSessions s) = hostKeysOf s := by
  unfold hostKeysOf cleanupOrphanedSessions
  simp [List.map_map, Function.comp_def, fixBusy_hostKey]

/-- Claim C2: `claim` reports `no_hosts` exactly when, after the
reconciliation pass, every live host is busy; on success it returns the
room and key of the first available host in iteration order, marks
exactly that host busy with `lastSeen = now`, leaves every other host
entry unchanged, and records the session `room → hostKey`. -/
theorem claim_spec (now : Nat) (s : Registry)
    (hk : (hostKeysOf s).Nodup) :
    ((claim now s).2 = ClaimResult.noHosts ↔
      ∀ h ∈ (cleanupOrphanedSessions s).hosts, h.busy = true)
    ∧ (∀ r k, (claim now s).2 = ClaimResult.ok r k →
        ∃ pre chosen post,
          (cleanupOrphanedSessions s).hosts = pre ++ chosen :: post
          ∧ (∀ h ∈ pre, h.busy = true)
          ∧ chosen.busy = false
          ∧ r = chosen.room ∧ k = chosen.hostKey
          ∧ (claim now s).1.hosts
              = pre ++ { chosen with busy := true, lastSeen := now } :: post
          ∧ sessGet (claim now s).1.sessions chosen.room = some chosen.hostKey) := by
  cases hfind : (cleanupOrphanedSessions s).hosts.find? (fun h => !h.busy) with
  | none =>
    have hc2 : (claim now s).2 = ClaimResult.noHosts := by simp [claim, hfind]
    constructor
    · rw [hc2]
      constructor
      · intro _ h hh
        have hnb := List.find?_eq_none.mp hfind h hh
        simpa using hnb
      · intro _
        rfl
    · intro r k hok
      rw [hc2] at hok
      cases hok
  | some chosen =>
    have hp := List.find?_some hfind
    have hmem := List.mem_of_find?_eq_some hfind
    have hbusy : chosen.busy = false := by simpa using hp
    have hc2 : (claim now s).2 = ClaimResult.ok chosen.room chosen.hostKey := by
      simp [claim, hfind]
    have hc1h : (claim now s).1.hosts
        = hostsUpdate (cleanupOrphanedSessions s).hosts chosen.hostKey
            (fun h => { h with busy := true, lastSeen := now }) := by
      simp [claim, hfind]
    have hc1s : (claim now s).1.sessions
        = sessSet (cleanupOrphanedSessions s).sessions chosen.room chosen.hostKey := by
      simp [claim, hfind]
    constructor
    · rw [hc2]
      constructor
      · intro h
        simp at h
      · intro hall
        exact absurd (hall chosen hmem) (by simp [hbusy])
    · intro r k hok
      rw [hc2] at hok
      injection hok with hr hk2
      obtain ⟨_, l1, l2, hsplit, hpre⟩ := find?_split hfind
      have hnd' : ((cleanupOrphanedSessions s).hosts.map Host.hostKey).Nodup := by
        have hkeq := hostKeysOf_cleanup s
        unfold hostKeysOf at hkeq
        rw [hkeq]
        exact hk
      rw [hsplit] at hnd'
      obtain ⟨hne1, hne2⟩ := keys_ne_of_nodup_middle hnd'
      refine ⟨l1, chosen, l2, hsplit, ?_, hbusy, hr.symm, hk2.symm, ?_, ?_⟩
      · intro h hh
        have hb := hpre h hh
        simpa using hb
      · rw [hc1h, hsplit]
        exact hostsUpdate_append_middle _ hne1 hne2
      · rw [hc1s]
        exact sessGet_sessSet_self _ _ _

/-- Witness for `claim_spec`: one busy host with its session, one free
host; claiming matches the free host. -/
theorem claim_spec_witness :
    ((claim 9 (⟨[⟨"A", "rA", true, 0, 0⟩, ⟨"B", "rB", false, 0, 0⟩],
        [("rA", "A")]⟩ : Registry)).2 = ClaimResult.noHosts ↔
      ∀ h ∈ (cleanupOrphanedSessions (⟨[⟨"A", "rA", true, 0, 0⟩, ⟨"B", "rB", false, 0, 0⟩],
        [("rA", "A")]⟩ : Registry)).hosts, h.busy = true) :=
  (claim_spec 9 (⟨[⟨"A", "rA", true, 0, 0⟩, ⟨"B", "rB", false, 0, 0⟩],
    [("rA", "A")]⟩ : Registry) (by decide)).1

/-! The user-side leave operation (claim C7). -/

/-- Claim C7 (amended): `leave` commits to `hostId` whenever one is
given and never falls back to the room lookup — the session table is
consulted only when `hostId` is absent — so `host_not_found` is
returned exactly when the committed key (`leaveKey`) is falsy or not
live, even if the other identifier would resolve.  On success the
resolved host's `busy` clears and `lastSeen` refreshes, the session
keyed by `room` (when given) is deleted, and ok is returned. -/
theorem leave_spec (room hostId : Option String) (now : Nat) (s : Registry) :
    ((leave room hostId now s).2 = OpResult.ok ↔
      ∃ k0, leaveKey room hostId s = some k0 ∧ hostsHas s.hosts k0 = true)
    ∧ (∀ k0, normKey hostId = some k0 → hostsHas s.hosts k0 = false →
        (leave room hostId now s).2 = OpResult.notFound)
    ∧ (∀ k0 prev, leaveKey room hostId s = some k0 →
        hostsGet s.hosts k0 = some prev →
        (leave room hostId now s).2 = OpResult.ok
        ∧ hostsGet (leave room hostId now s).1.hosts k0
            = some { prev with busy := false, lastSeen := now }
        ∧ (∀ r, normKey room = some r →
            (leave room hostId now s).1.sessions = sessDeleteRoom s.sessions r)
        ∧ (normKey room = none →
            (leave room hostId now s).1.sessions = s.sessions)) := by
  have hred : leave room hostId now s
      = (match leaveKey room hostId s with
         | none => (s, OpResult.notFound)
         | some k =>
           match hostsGet s.hosts k with
           | none => (s, OpResult.notFound)
           | some _ =>
             (⟨hostsUpdate s.hosts k (fun h => { h with busy := false, lastSeen := now }),
               match normKey room with
               | some r => sessDeleteRoom s.sessions r
               | none => s.sessions⟩, OpResult.ok)) := rfl
  cases hlk : leaveKey room hostId s with
  | none =>
    rw [hred, hlk]
    refine ⟨?_, ?_, ?_⟩
    · constructor
      · intro h
        cases h
      · rintro ⟨k0, hk0, _⟩
        cases hk0
    · intro k0 hnh _
      rfl
    · intro k0 prev hk0 _
      cases hk0
  | some k0 =>
    cases hget : hostsGet s.hosts k0 with
    | none =>
      have hc : leave room hostId now s = (s, OpResult.notFound) := by
        rw [hred, hlk]
        dsimp only
        rw [hget]
      rw [hc]
      refine ⟨?_, ?_, ?_⟩
      · constructor
        · intro h
          cases h
        · rintro ⟨k1, hk1, hhas1⟩
          injection hk1 with hk1
          subst hk1
          rw [hostsGet_none_iff.mp hget] at hhas1
          cases hhas1
      · intro k1 hnh hhas1
        rfl
      · intro k1 prev hk1 hget1
        injection hk1 with hk1
        subst hk1
        rw [hget] at hget1
        cases hget1
    | some prev0 =>
      have hhas : hostsHas s.hosts k0 = true := hostsHas_of_hostsGet_some hget
      have hc : leave room hostId now s
          = (⟨hostsUpdate s.hosts k0 (fun h => { h with busy := false, lastSeen := now }),
              match normKey room with
              | some r => sessDeleteRoom s.sessions r
              | none => s.sessions⟩, OpResult.ok) := by
        rw [hred, hlk]
        dsimp only
        rw [hget]
      rw [hc]
      refine ⟨?_, ?_, ?_⟩
      · constructor
        · intro _
          exact ⟨k0, rfl, hhas⟩
        · intro _
          rfl
      · intro k1 hnh hhas1
        have hk1 : leaveKey room hostId s = some k1 := by
          unfold leaveKey
          rw [hnh]
        rw [hlk] at hk1
        injection hk1 with hk1
        subst hk1
        rw [hhas] at hhas1
        cases hhas1
      · intro k1 prev hk1 hget1
        injection hk1 with hk1
        subst hk1
        rw [hget] at hget1
        have hprev : prev0 = prev := Option.some.inj hget1
        subst hprev
        refine ⟨rfl, ?_, ?_, ?_⟩
        · have hres : ∀ h : Host, (h.hostKey == k0) = true →
              (((fun h2 : Host => { h2 with busy := false, lastSeen := now }) h).hostKey == k0)
                = true := by
            intro h hh
            simpa using hh
          obtain ⟨h0, hg0, hg1⟩ := find?_map_update_self hhas hres
          rw [hget] at hg0
          have h00 : prev0 = h0 := Option.some.inj hg0
          subst h00
          exact hg1
        · intro r hnr
          rw [hnr]
        · intro hnr
          rw [hnr]

/-- Claim C7 counterexample: with live host "H" serving room "rA" and
the session present, a leave naming that room together with an unknown
hostId returns `host_not_found` — the code commits to the given hostId
and never falls back to the room lookup, so not-found is reported even
though one of the identifiers resolves to a live host. -/
theorem leave_ignores_room_cex :
    sessGet (⟨[⟨"H", "rA", true, 0, 0⟩], [("rA", "H")]⟩ : Registry).sessions "rA"
        = some "H"
    ∧ hostsHas (⟨[⟨"H", "rA", true, 0, 0⟩], [("rA", "H")]⟩ : Registry).hosts "H" = true
    ∧ (leave (some "rA") (some "dead") 5
        (⟨[⟨"H", "rA", true, 0, 0⟩], [("rA", "H")]⟩ : Registry)).2 = OpResult.notFound :=
  ⟨by decide, by decide, by decide⟩

/-! Exclusivity infrastructure (claim C1). -/

theorem map_congr_mem {α β : Type} {l : List α} {f g : α → β}
    (h : ∀ a ∈ l, f a = g a) : l.map f = l.map g := by
  induction l with
  | nil => rfl
  | cons a t ih =>
    rw [List.map_cons, List.map_cons, h a (List.mem_cons_self a t),
      ih (fun x hx => h x (List.mem_cons_of_mem a hx))]

theorem eq_of_key_eq_nodup {l : List Host} (hnd : (l.map Host.hostKey).Nodup)
    {h1 h2 : Host} (m1 : h1 ∈ l) (m2 : h2 ∈ l) (hk : h1.hostKey = h2.hostKey) :
    h1 = h2 :=
  List.inj_on_of_nodup_map hnd m1 m2 hk

theorem eq_of_room_eq_nodup {l : List Host} (hnd : (l.map Host.room).Nodup)
    {h1 h2 : Host} (m1 : h1 ∈ l) (m2 : h2 ∈ l) (hk : h1.room = h2.room) :
    h1 = h2 :=
  List.inj_on_of_nodup_map hnd m1 m2 hk

theorem fstNodup_filter {l : List (String × String)} (q : String × String → Bool)
    (hnd : (l.map Prod.fst).Nodup) : ((l.filter q).map Prod.fst).Nodup :=
  List.Nodup.sublist (List.Sublist.map Prod.fst (List.filter_sublist l)) hnd

theorem normKey_eq_some {o : Option String} {k : String}
    (h : normKey o = some k) : o = some k := by
  cases o with
  | none => cases h
  | some s =>
    simp only [normKey] at h
    by_cases hs : s = ""
    · rw [if_pos hs] at h
      cases h
    · rw [if_neg hs] at h
      exact h

theorem sessGet_some_mem {l : List (String × String)} {r v : String}
    (h : sessGet l r = some v) : (r, v) ∈ l := by
  unfold sessGet at h
  cases hf : l.find? (fun p => p.1 == r) with
  | none =>
    rw [hf] at h
    cases h
  | some q =>
    rw [hf] at h
    have hv : q.2 = v := Option.some.inj h
    have hq1 : q.1 = r := by simpa using List.find?_some hf
    have hqm : q ∈ l := List.mem_of_find?_eq_some hf
    have hqe : q = (r, v) := by
      cases q
      simp only at hv hq1
      rw [hv, hq1]
    rw [← hqe]
    exact hqm

theorem mem_sessSet {l : List (String × String)} {r k : String} {p : String × String}
    (hp : p ∈ sessSet l r k) : p = (r, k) ∨ (p ∈ l ∧ p.1 ≠ r) := by
  unfold sessSet at hp
  by_cases hany : l.any (fun q => q.1 == r) = true
  · rw [if_pos hany] at hp
    obtain ⟨q, hq, hqe⟩ := List.mem_map.mp hp
    by_cases hc : (q.1 == r) = true
    · rw [if_pos hc] at hqe
      exact Or.inl hqe.symm
    · rw [if_neg hc] at hqe
      subst hqe
      exact Or.inr ⟨hq, by simpa using hc⟩
  · rw [if_neg hany] at hp
    rcases List.mem_append.mp hp with hm | hm
    · refine Or.inr ⟨hm, ?_⟩
      intro hcontra
      exact hany (List.any_eq_true.mpr ⟨p, hm, by simp [hcontra]⟩)
    · exact Or.inl (List.mem_singleton.mp hm)

theorem sessSet_keeps {l : List (String × String)} {r k : String} {p : String × String}
    (hp : p ∈ l) (hne : p.1 ≠ r) : p ∈ sessSet l r k := by
  unfold sessSet
  by_cases hany : l.any (fun q => q.1 == r) = true
  · rw [if_pos hany]
    exact List.mem_map.mpr ⟨p, hp, by rw [if_neg (by simpa using hne)]⟩
  · rw [if_neg hany]
    exact List.mem_append.mpr (Or.inl hp)

theorem sessSet_self_mem (l : List (String × String)) (r k : String) :
    (r, k) ∈ sessSet l r k := by
  unfold sessSet
  by_cases hany : l.any (fun q => q.1 == r) = true
  · rw [if_pos hany]
    obtain ⟨q, hq, hq1⟩ := List.any_eq_true.mp hany
    exact List.mem_map.mpr ⟨q, hq, by rw [if_pos hq1]⟩
  · rw [if_neg hany]
    exact List.mem_append.mpr (Or.inr (List.mem_singleton.mpr rfl))

theorem sessRooms_nodup_sessSet {l : List (String × String)} {r k : String}
    (hnd : (l.map Prod.fst).Nodup) : ((sessSet l r k).map Prod.fst).Nodup := by
  unfold sessSet
  by_cases hany : l.any (fun q => q.1 == r) = true
  · rw [if_pos hany]
    have hkeys : (l.map (fun q => if q.1 == r then (r, k) else q)).map Prod.fst
        = l.map Prod.fst := by
      rw [List.map_map]
      apply map_congr_mem
      intro q _
      by_cases hc : (q.1 == r) = true
      · simp only [Function.comp_def, if_pos hc]
        exact (by simpa using hc : q.1 = r).symm
      · simp only [Function.comp_def, if_neg hc]
    rw [hkeys]
    exact hnd
  · rw [if_neg hany, List.map_append]
    rw [List.nodup_append]
    refine ⟨hnd, List.nodup_singleton _, ?_⟩
    intro a ha hb
    rw [show List.map Prod.fst [(r, k)] = [r] from rfl, List.mem_singleton] at hb
    subst hb
    obtain ⟨q, hq, hqa⟩ := List.mem_map.mp ha
    exact hany (List.any_eq_true.mpr ⟨q, hq, by simp [hqa]⟩)

theorem locked_hosts_map {K roomK : String} {s : Registry} {g : Host → Host}
    (hL : Locked K roomK s)
    (hgkey : ∀ h ∈ s.hosts, (g h).hostKey = h.hostKey)
    (hgKpres : ∀ h ∈ s.hosts, h.hostKey = K → (g h).room = h.room ∧ (g h).busy = h.busy)
    (hgroom : ∀ h ∈ s.hosts, (g h).room = roomK → (g h).hostKey = K)
    {sess' : List (String × String)}
    (hKs : (roomK, K) ∈ sess')
    (hnd : (sess'.map Prod.fst).Nodup)
    (hL4 : ∀ p ∈ sess', p.2 = K → p.1 = roomK) :
    Locked K roomK ⟨s.hosts.map g, sess'⟩ := by
  obtain ⟨hk1, _, ⟨h0, h0mem, h0key, h0room, h0busy⟩, _, _, _⟩ := hL
  refine ⟨?_, hnd, ?_, hKs, ?_, hL4⟩
  · have : (s.hosts.map g).map Host.hostKey = s.hosts.map Host.hostKey := by
      rw [List.map_map]
      exact map_congr_mem (fun h hh => hgkey h hh)
    rw [this]
    exact hk1
  · refine ⟨g h0, List.mem_map_of_mem g h0mem, ?_, ?_, ?_⟩
    · rw [hgkey h0 h0mem]
      exact h0key
    · rw [(hgKpres h0 h0mem h0key).1]
      exact h0room
    · rw [(hgKpres h0 h0mem h0key).2]
      exact h0busy
  · intro h' hh' hroom'
    obtain ⟨h, hh, rfl⟩ := List.mem_map.mp hh'
    exact hgroom h hh hroom'

theorem locked_hosts_append {K roomK : String} {s : Registry} {v : Host}
    (hL : Locked K roomK s)
    (_hvk : v.hostKey ≠ K) (hvroom : v.room ≠ roomK)
    (hvfresh : hostsHas s.hosts v.hostKey = false)
    {sess' : List (String × String)}
    (hKs : (roomK, K) ∈ sess')
    (hnd : (sess'.map Prod.fst).Nodup)
    (hL4 : ∀ p ∈ sess', p.2 = K → p.1 = roomK) :
    Locked K roomK ⟨s.hosts ++ [v], sess'⟩ := by
  obtain ⟨hk1, _, ⟨h0, h0mem, h0key, h0room, h0busy⟩, _, hL3, _⟩ := hL
  refine ⟨?_, hnd, ⟨h0, List.mem_append.mpr (Or.inl h0mem), h0key, h0room, h0busy⟩,
    hKs, ?_, hL4⟩
  · rw [List.map_append, List.nodup_append]
    refine ⟨hk1, List.nodup_singleton _, ?_⟩
    intro a ha hb
    rw [show List.map Host.hostKey [v] = [v.hostKey] from rfl, List.mem_singleton] at hb
    subst hb
    obtain ⟨h, hh, hha⟩ := List.mem_map.mp ha
    rw [hostsHas] at hvfresh
    have : s.hosts.any (fun h2 => h2.hostKey == v.hostKey) = true :=
      List.any_eq_true.mpr ⟨h, hh, by simp [hha]⟩
    rw [this] at hvfresh
    cases hvfresh
  · intro h hh hroom
    rcases List.mem_append.mp hh with hm | hm
    · exact hL3 h hm hroom
    · rw [List.mem_singleton.mp hm] at hroom
      exact absurd hroom hvroom

theorem locked_hosts_filter {K roomK : String} {s : Registry} {q : Host → Bool}
    (hL : Locked K roomK s)
    (hq : ∀ h ∈ s.hosts, h.hostKey = K → q h = true)
    {sess' : List (String × String)}
    (hKs : (roomK, K) ∈ sess')
    (hnd : (sess'.map Prod.fst).Nodup)
    (hL4 : ∀ p ∈ sess', p.2 = K → p.1 = roomK) :
    Locked K roomK ⟨s.hosts.filter q, sess'⟩ := by
  obtain ⟨hk1, _, ⟨h0, h0mem, h0key, h0room, h0busy⟩, _, hL3, _⟩ := hL
  refine ⟨?_, hnd, ?_, hKs, ?_, hL4⟩
  · exact List.Nodup.sublist (List.Sublist.map Host.hostKey (List.filter_sublist s.hosts)) hk1
  · exact ⟨h0, List.mem_filter.mpr ⟨h0mem, hq h0 h0mem h0key⟩, h0key, h0room, h0busy⟩
  · intro h hh hroom
    exact hL3 h (List.mem_filter.mp hh).1 hroom

theorem locked_hostsSet {K roomK : String} {s : Registry} {k' : String} {v : Host}
    (hL : Locked K roomK s) (hk' : k' ≠ K) (hvk : v.hostKey = k')
    (hvroom : v.room ≠ roomK)
    {sess' : List (String × String)}
    (hKs : (roomK, K) ∈ sess')
    (hnd : (sess'.map Prod.fst).Nodup)
    (hL4 : ∀ p ∈ sess', p.2 = K → p.1 = roomK) :
    Locked K roomK ⟨hostsSet s.hosts k' v, sess'⟩ := by
  unfold hostsSet
  by_cases hhas : hostsHas s.hosts k' = true
  · rw [if_pos hhas]
    refine locked_hosts_map hL ?_ ?_ ?_ hKs hnd hL4
    · intro h _
      by_cases hc : (h.hostKey == k') = true
      · rw [if_pos hc, hvk]
        exact (by simpa using hc : h.hostKey = k').symm
      · rw [if_neg hc]
    · intro h _ hkK
      have : (h.hostKey == k') = false := by
        rw [Bool.eq_false_iff]
        intro hc
        exact hk' (by rw [← (by simpa using hc : h.hostKey = k'), hkK])
      rw [if_neg (by simp [this])]
      exact ⟨rfl, rfl⟩
    · intro h hh hroom
      by_cases hc : (h.hostKey == k') = true
      · rw [if_pos hc] at hroom
        exact absurd hroom hvroom
      · rw [if_neg hc] at hroom ⊢
        exact hL.2.2.2.2.1 h hh hroom
  · rw [if_neg hhas]
    refine locked_hosts_append hL ?_ hvroom ?_ hKs hnd hL4
    · rw [hvk]
      exact hk'
    · rw [hvk]
      exact (by simpa using hhas : hostsHas s.hosts k' = false)

theorem locked_cleanup {K roomK : String} {s : Registry} (hL : Locked K roomK s) :
    Locked K roomK (cleanupOrphanedSessions s) := by
  obtain ⟨hk1, hk2, ⟨h0, h0mem, h0key, h0room, h0busy⟩, hsess, hL3, hL4⟩ := hL
  have hL' : Locked K roomK s := ⟨hk1, hk2, ⟨h0, h0mem, h0key, h0room, h0busy⟩, hsess, hL3, hL4⟩
  have hKlive : hostsHas s.hosts K = true :=
    List.any_eq_true.mpr ⟨h0, h0mem, by simp [h0key]⟩
  have hsessL : (roomK, K) ∈ liveSessions s :=
    List.mem_filter.mpr ⟨hsess, hKlive⟩
  show Locked K roomK ⟨s.hosts.map (fixBusy (liveSessions s)), liveSessions s⟩
  refine locked_hosts_map hL' ?_ ?_ ?_ hsessL ?_ ?_
  · intro h _
    exact fixBusy_hostKey _ h
  · intro h hh hkK
    have hhe : h = h0 := eq_of_key_eq_nodup hk1 hh h0mem (by rw [hkK, h0key])
    subst hhe
    have hex : hasExactSession (liveSessions s) h = true := by
      unfold hasExactSession
      exact List.any_eq_true.mpr ⟨(roomK, K), hsessL, by simp [h0key, h0room]⟩
    unfold fixBusy
    rw [hex]
    simp
  · intro h hh hroom
    rw [fixBusy_room] at hroom
    rw [fixBusy_hostKey]
    exact hL3 h hh hroom
  · exact fstNodup_filter _ hk2
  · intro p hp hpK
    exact hL4 p (List.mem_filter.mp hp).1 hpK

theorem locked_busy_update {K roomK : String} {s : Registry} {k' : String} {b : Bool}
    (hL : Locked K roomK s) (hk'K : k' ≠ K)
    {sess' : List (String × String)}
    (hKs : (roomK, K) ∈ sess') (hnd : (sess'.map Prod.fst).Nodup)
    (hL4 : ∀ p ∈ sess', p.2 = K → p.1 = roomK) (now : Nat) :
    Locked K roomK ⟨hostsUpdate s.hosts k'
      (fun h => { h with busy := b, lastSeen := now }), sess'⟩ := by
  refine locked_hosts_map hL ?_ ?_ ?_ hKs hnd hL4
  · intro h2 _
    dsimp only
    split <;> rfl
  · intro h2 _ hkK
    have hfalse : (h2.hostKey == k') = false := by
      rw [Bool.eq_false_iff]
      intro hc
      exact hk'K (by rw [← (by simpa using hc : h2.hostKey = k'), hkK])
    dsimp only
    rw [if_neg (by simp [hfalse])]
    exact ⟨rfl, rfl⟩
  · intro h2 hh2 hroom
    dsimp only at hroom ⊢
    by_cases hc : (h2.hostKey == k') = true
    · rw [if_pos hc] at hroom ⊢
      exact hL.2.2.2.2.1 h2 hh2 (by simpa using hroom)
    · rw [if_neg hc] at hroom ⊢
      exact hL.2.2.2.2.1 h2 hh2 hroom

theorem locked_seen_update {K roomK : String} {s : Registry} (k' : String)
    (hL : Locked K roomK s) (now : Nat) :
    Locked K roomK ⟨hostsUpdate s.hosts k' (fun h => { h with lastSeen := now }),
      s.sessions⟩ := by
  refine locked_hosts_map hL ?_ ?_ ?_ hL.2.2.2.1 hL.2.1 hL.2.2.2.2.2
  · intro h2 _
    dsimp only
    split <;> rfl
  · intro h2 _ _
    dsimp only
    constructor <;> split <;> rfl
  · intro h2 hh2 hroom
    dsimp only at hroom ⊢
    by_cases hc : (h2.hostKey == k') = true
    · rw [if_pos hc] at hroom ⊢
      exact hL.2.2.2.2.1 h2 hh2 (by simpa using hroom)
    · rw [if_neg hc] at hroom ⊢
      exact hL.2.2.2.2.1 h2 hh2 hroom

theorem sessDeleteHost_locked_facts {K roomK : String} {s : Registry} {k' : String}
    (hL : Locked K roomK s) (hk'K : k' ≠ K) :
    (roomK, K) ∈ sessDeleteHost s.sessions k'
    ∧ ((sessDeleteHost s.sessions k').map Prod.fst).Nodup
    ∧ (∀ p ∈ sessDeleteHost s.sessions k', p.2 = K → p.1 = roomK) := by
  refine ⟨?_, fstNodup_filter _ hL.2.1, ?_⟩
  · exact List.mem_filter.mpr ⟨hL.2.2.2.1, by simp [Ne.symm hk'K]⟩
  · intro p hp hpK
    exact hL.2.2.2.2.2 p (List.mem_filter.mp hp).1 hpK

theorem sessDeleteRoom_locked_facts {K roomK : String} {s : Registry} {r : String}
    (hL : Locked K roomK s) (hrK : r ≠ roomK) :
    (roomK, K) ∈ sessDeleteRoom s.sessions r
    ∧ ((sessDeleteRoom s.sessions r).map Prod.fst).Nodup
    ∧ (∀ p ∈ sessDeleteRoom s.sessions r, p.2 = K → p.1 = roomK) := by
  refine ⟨?_, fstNodup_filter _ hL.2.1, ?_⟩
  · exact List.mem_filter.mpr ⟨hL.2.2.2.1, by simp [Ne.symm hrK]⟩
  · intro p hp hpK
    exact hL.2.2.2.2.2 p (List.mem_filter.mp hp).1 hpK

theorem locked_step {K roomK : String} {s : Registry} {op : Op}
    (hL : Locked K roomK s) (hna : NotAffecting K roomK s op) :
    Locked K roomK (stepState op s) := by
  cases op with
  | register sk fk fr now =>
    obtain ⟨hkK, hfr⟩ := hna
    cases hnk : normKey sk with
    | some k' =>
      have hk'K : k' ≠ K := by
        intro hc
        apply hkK
        unfold regKeyUsed
        rw [hnk, hc]
        rfl
      cases hget : hostsGet s.hosts k' with
      | some prev =>
        obtain ⟨hm, hnd, h4⟩ := sessDeleteHost_locked_facts hL hk'K
        simp only [stepState, register, hnk, hget]
        exact locked_hostsSet hL hk'K rfl hfr hm hnd h4
      | none =>
        simp only [stepState, register, hnk, hget]
        exact locked_hostsSet hL hk'K rfl hfr hL.2.2.2.1 hL.2.1 hL.2.2.2.2.2
    | none =>
      have hfkK : fk ≠ K := by
        intro hc
        apply hkK
        unfold regKeyUsed
        rw [hnk, hc]
        rfl
      simp only [stepState, register, hnk]
      exact locked_hostsSet hL hfkK rfl hfr hL.2.2.2.1 hL.2.1 hL.2.2.2.2.2
  | heartbeat k now =>
    cases hnk : normKey k with
    | none => simpa [stepState, heartbeat, hnk] using hL
    | some k' =>
      cases hget : hostsGet s.hosts k' with
      | none => simpa [stepState, heartbeat, hnk, hget] using hL
      | some h =>
        simp only [stepState, heartbeat, hnk, hget]
        exact locked_seen_update k' hL now
  | release k now =>
    cases hnk : normKey k with
    | none => simpa [stepState, release, hnk] using hL
    | some k' =>
      have hk'K : k' ≠ K := fun hc => hna (by rw [hnk, hc])
      cases hget : hostsGet s.hosts k' with
      | none => simpa [stepState, release, hnk, hget] using hL
      | some h =>
        obtain ⟨hm, hnd, h4⟩ := sessDeleteHost_locked_facts hL hk'K
        simp only [stepState, release, hnk, hget]
        exact locked_busy_update hL hk'K hm hnd h4 now
  | unregister k =>
    cases hnk : normKey k with
    | none => simpa [stepState, unregister, hnk] using hL
    | some k' =>
      have hk'K : k' ≠ K := fun hc => hna (by rw [hnk, hc])
      by_cases hhas : hostsHas s.hosts k' = true
      · obtain ⟨hm, hnd, h4⟩ := sessDeleteHost_locked_facts hL hk'K
        simp only [stepState, unregister, hnk]
        rw [if_pos hhas]
        refine locked_hosts_filter hL ?_ hm hnd h4
        intro h hh hkK
        have hfalse : (h.hostKey == k') = false := by
          rw [Bool.eq_false_iff]
          intro hc
          exact hk'K (by rw [← (by simpa using hc : h.hostKey = k'), hkK])
        rw [hfalse]
        rfl
      · simp only [stepState, unregister, hnk]
        rw [if_neg hhas]
        exact hL
  | claim now =>
    have hLc : Locked K roomK (cleanupOrphanedSessions s) := locked_cleanup hL
    cases hfind : (cleanupOrphanedSessions s).hosts.find? (fun h => !h.busy) with
    | none =>
      simp only [stepState, claim, hfind]
      exact hLc
    | some chosen =>
      have hmem := List.mem_of_find?_eq_some hfind
      have hbusy : chosen.busy = false := by simpa using List.find?_some hfind
      have hchK : chosen.hostKey ≠ K := by
        intro hc
        obtain ⟨ck1, _, ⟨c0, c0mem, c0key, c0room, c0busy⟩, _, _, _⟩ := hLc
        have hce : chosen = c0 := eq_of_key_eq_nodup ck1 hmem c0mem (by rw [hc, c0key])
        rw [hce, c0busy] at hbusy
        cases hbusy
      have hchR : chosen.room ≠ roomK := by
        intro hc
        exact hchK (hLc.2.2.2.2.1 chosen hmem hc)
      simp only [stepState, claim, hfind]
      refine locked_busy_update hLc hchK ?_ ?_ ?_ now
      · exact sessSet_keeps hLc.2.2.2.1 (Ne.symm hchR)
      · exact sessRooms_nodup_sessSet hLc.2.1
      · intro p hp hpK
        rcases mem_sessSet hp with hpe | ⟨hpm, _⟩
        · rw [hpe] at hpK
          exact absurd (by simpa using hpK) hchK
        · exact hLc.2.2.2.2.2 p hpm hpK
  | leave r hid now =>
    obtain ⟨hhidK, hrK⟩ := hna
    cases hnh : normKey hid with
    | some k1 =>
      have hk1K : k1 ≠ K := fun hc => hhidK (by rw [hnh, hc])
      cases hget : hostsGet s.hosts k1 with
      | none => simpa [stepState, leave, hnh, hget] using hL
      | some h =>
        cases hnr : normKey r with
        | some rr =>
          have hrrK : rr ≠ roomK := fun hc => hrK (by rw [hnr, hc])
          obtain ⟨hm, hnd, h4⟩ := sessDeleteRoom_locked_facts hL hrrK
          simp only [stepState, leave, hnh, hget, hnr]
          exact locked_busy_update hL hk1K hm hnd h4 now
        | none =>
          simp only [stepState, leave, hnh, hget, hnr]
          exact locked_busy_update hL hk1K hL.2.2.2.1 hL.2.1 hL.2.2.2.2.2 now
    | none =>
      cases hnr : normKey r with
      | none => simpa [stepState, leave, hnh, hnr] using hL
      | some rr =>
        have hrrK : rr ≠ roomK := fun hc => hrK (by rw [hnr, hc])
        cases hsg : normKey (sessGet s.sessions rr) with
        | none => simpa [stepState, leave, hnh, hnr, hsg] using hL
        | some k1 =>
          have hk1K : k1 ≠ K := by
            intro hc
            subst hc
            have hmem := sessGet_some_mem (normKey_eq_some hsg)
            exact hrrK (hL.2.2.2.2.2 (rr, k1) hmem rfl)
          cases hget : hostsGet s.hosts k1 with
          | none => simpa [stepState, leave, hnh, hnr, hsg, hget] using hL
          | some h =>
            obtain ⟨hm, hnd, h4⟩ := sessDeleteRoom_locked_facts hL hrrK
            simp only [stepState, leave, hnh, hnr, hsg, hget]
            exact locked_busy_update hL hk1K hm hnd h4 now
  | sweep now =>
    simp only [stepState, sweep]
    refine locked_hosts_filter hL ?_ ?_ ?_ ?_
    · intro h hh hkK
      have : isStale now h = false := by
        unfold isStale
        simp only [decide_eq_false_iff_not]
        exact hna h hh hkK
      rw [this]
      rfl
    · refine List.mem_filter.mpr ⟨hL.2.2.2.1, ?_⟩
      simp only [Bool.not_eq_true', List.any_eq_false]
      intro h hh
      intro hc
      rw [Bool.and_eq_true] at hc
      obtain ⟨hstale, hkey⟩ := hc
      have hkK : h.hostKey = K := by simpa using hkey
      have hnotst := hna h hh hkK
      unfold isStale at hstale
      simp only [decide_eq_true_eq] at hstale
      exact hnotst hstale
    · exact fstNodup_filter _ hL.2.1
    · intro p hp hpK
      exact hL.2.2.2.2.2 p (List.mem_filter.mp hp).1 hpK

theorem locked_run {K roomK : String} {s s' : Registry} {ops : List Op}
    (hL : Locked K roomK s) (hrun : RunNA K roomK s ops s') : Locked K roomK s' := by
  induction hrun with
  | nil _ => exact hL
  | cons hna _ ih => exact ih (locked_step hL hna)

theorem locked_claim_ne {K roomK : String} {s : Registry} (hL : Locked K roomK s)
    (now : Nat) : ∀ r k, (claim now s).2 = ClaimResult.ok r k → k ≠ K := by
  intro r k hok
  have hLc : Locked K roomK (cleanupOrphanedSessions s) := locked_cleanup hL
  cases hfind : (cleanupOrphanedSessions s).hosts.find? (fun h => !h.busy) with
  | none =>
    have hc2 : (claim now s).2 = ClaimResult.noHosts := by simp [claim, hfind]
    rw [hc2] at hok
    cases hok
  | some chosen =>
    have hc2 : (claim now s).2 = ClaimResult.ok chosen.room chosen.hostKey := by
      simp [claim, hfind]
    rw [hc2] at hok
    injection hok with h1 h2
    subst h2
    have hmem := List.mem_of_find?_eq_some hfind
    have hbusy : chosen.busy = false := by simpa using List.find?_some hfind
    intro hc
    obtain ⟨ck1, _, ⟨c0, c0mem, c0key, c0room, c0busy⟩, _, _, _⟩ := hLc
    have hce : chosen = c0 := eq_of_key_eq_nodup ck1 hmem c0mem (by rw [hc, c0key])
    rw [hce, c0busy] at hbusy
    cases hbusy

theorem claim_establishes_locked {s : Registry} {now : Nat} {roomK K : String}
    (hinv : RegInv s)
    (hok : (claim now s).2 = ClaimResult.ok roomK K) :
    Locked K roomK (claim now s).1 := by
  obtain ⟨hk1, hk2, hk3, hk4⟩ := hinv
  cases hfind : (cleanupOrphanedSessions s).hosts.find? (fun h => !h.busy) with
  | none =>
    have hc2 : (claim now s).2 = ClaimResult.noHosts := by simp [claim, hfind]
    rw [hc2] at hok
    cases hok
  | some chosen =>
    have hc2 : (claim now s).2 = ClaimResult.ok chosen.room chosen.hostKey := by
      simp [claim, hfind]
    rw [hc2] at hok
    injection hok with h1 h2
    subst h1
    subst h2
    have hmem := List.mem_of_find?_eq_some hfind
    have hc1 : (claim now s).1
        = ⟨hostsUpdate (cleanupOrphanedSessions s).hosts chosen.hostKey
            (fun h => { h with busy := true, lastSeen := now }),
          sessSet (cleanupOrphanedSessions s).sessions chosen.room chosen.hostKey⟩ := by
      simp [claim, hfind]
    rw [hc1]
    have hck : ((cleanupOrphanedSessions s).hosts.map Host.hostKey).Nodup := by
      have h := hostKeysOf_cleanup s
      unfold hostKeysOf at h
      rw [h]
      exact hk1
    have hcr : ((cleanupOrphanedSessions s).hosts.map Host.room).Nodup := by
      have h := roomsOf_cleanup s
      unfold roomsOf at h
      rw [h]
      exact hk3
    have hcs : ((cleanupOrphanedSessions s).sessions.map Prod.fst).Nodup :=
      fstNodup_filter _ hk2
    have hns : ∀ p ∈ (cleanupOrphanedSessions s).sessions,
        ∀ h ∈ (cleanupOrphanedSessions s).hosts, p.2 = h.hostKey → p.1 = h.room := by
      intro p hp h hh hpk
      obtain ⟨h0, hh0, rfl⟩ := List.mem_map.mp hh
      rw [fixBusy_hostKey] at hpk
      rw [fixBusy_room]
      exact hk4 p (List.mem_filter.mp hp).1 h0 hh0 hpk
    refine ⟨?_, sessRooms_nodup_sessSet hcs, ?_, sessSet_self_mem _ _ _, ?_, ?_⟩
    · have heq : (hostsUpdate (cleanupOrphanedSessions s).hosts chosen.hostKey
          (fun h => { h with busy := true, lastSeen := now })).map Host.hostKey
          = (cleanupOrphanedSessions s).hosts.map Host.hostKey := by
        unfold hostsUpdate
        rw [List.map_map]
        apply map_congr_mem
        intro h _
        dsimp only [Function.comp_def]
        split <;> rfl
      rw [heq]
      exact hck
    · refine ⟨{ chosen with busy := true, lastSeen := now }, ?_, rfl, rfl, rfl⟩
      have hel : { chosen with busy := true, lastSeen := now }
          = (fun h => if h.hostKey == chosen.hostKey
              then { h with busy := true, lastSeen := now } else h) chosen := by
        dsimp only
        rw [if_pos (by simp)]
      rw [hel]
      exact List.mem_map_of_mem _ hmem
    · intro h' hh' hroom
      obtain ⟨h, hh, rfl⟩ := List.mem_map.mp hh'
      by_cases hc : (h.hostKey == chosen.hostKey) = true
      · dsimp only at hroom ⊢
        rw [if_pos hc] at hroom ⊢
        simpa using hc
      · dsimp only at hroom ⊢
        rw [if_neg hc] at hroom ⊢
        have hhe : h = chosen := eq_of_room_eq_nodup hcr hh hmem hroom
        rw [hhe]
    · intro p hp hpK
      rcases mem_sessSet hp with hpe | ⟨hpm, _⟩
      · rw [hpe]
      · exact hns p hpm chosen hmem hpK

/-- Claim C1 (amended): from any state satisfying the registry
invariants `RegInv` (unique keys, unique rooms, unique session rooms,
sessions naming their live host's current room), once a claim succeeds
returning `(roomK, K)`, no later claim returns `K` as long as every
intervening operation is `NotAffecting` for `K`/`roomK` — that is,
until a release of `K`, an unregister of `K`, a register storing under
`K` or minting `roomK`, a leave naming `K` or `roomK`, or a TTL sweep
evicting `K` occurs.  The original claim listed only release, leave and
eviction; re-registration and unregister also free `K`, as the
counterexample shows. -/
theorem claim_exclusive (s : Registry) (now0 : Nat) (roomK K : String)
    (hinv : RegInv s)
    (hok : (claim now0 s).2 = ClaimResult.ok roomK K)
    (ops : List Op) (s' : Registry)
    (hrun : RunNA K roomK (claim now0 s).1 ops s')
    (now1 : Nat) :
    ∀ r k, (claim now1 s').2 = ClaimResult.ok r k → k ≠ K :=
  locked_claim_ne (locked_run (claim_establishes_locked hinv hok) hrun) now1

/-- Witness for `claim_exclusive`: two free hosts; the first claim locks
"K", a heartbeat intervenes, and the second claim must pick "B". -/
theorem claim_exclusive_witness :
    (claim 7 (⟨[⟨"K", "rA", false, 0, 0⟩, ⟨"B", "rB", false, 0, 0⟩], []⟩ : Registry)).2
        = ClaimResult.ok "rA" "K"
    ∧ (claim 9 (stepState (Op.heartbeat (some "K") 8)
        (claim 7 (⟨[⟨"K", "rA", false, 0, 0⟩, ⟨"B", "rB", false, 0, 0⟩],
          []⟩ : Registry)).1)).2 = ClaimResult.ok "rB" "B"
    ∧ "B" ≠ "K" :=
  ⟨by decide, by decide,
    claim_exclusive (⟨[⟨"K", "rA", false, 0, 0⟩, ⟨"B", "rB", false, 0, 0⟩], []⟩ : Registry)
      7 "rA" "K" ⟨by decide, by decide, by decide, by decide⟩ (by decide)
      [Op.heartbeat (some "K") 8] _
      (RunNA.cons (by trivial) (RunNA.nil _)) 9 "rB" "B" (by decide)⟩

/-- Claim C1 counterexample: `register` with the stable key "K" resets
`busy`, so after claim → re-register → claim the same host key "K" is
handed out twice with no release, leave or TTL eviction in between —
only register operations separate the two claims. -/
theorem claim_exclusivity_reregister_cex :
    (claim 0 (stepState (Op.register (some "K") "x" "r1" 0) emptyRegistry)).2
        = ClaimResult.ok "r1" "K"
    ∧ (claim 0 (stepState (Op.register (some "K") "x" "r2" 0)
        (stepState (Op.claim 0)
          (stepState (Op.register (some "K") "x" "r1" 0) emptyRegistry)))).2
        = ClaimResult.ok "r2" "K" :=
  ⟨by decide, by decide⟩
